import Mathlib

/-!
# Verification of the Bradley–Terry rating estimator (`src/lib/bradley-terry.ts`)

Shallow embedding of the `BradleyTerryModel` class.  The iterative fitting
loop works only with `+`, `*`, `/` and comparisons on IEEE numbers; we embed
it over `ℚ` (exact arithmetic).  The final Elo-display conversion uses
`Math.log` / `Math.exp` / `Math.log10` and is embedded over `ℝ`.

The roster is a list of competitor identifiers (`String`), assumed unique by
the construction contract; nested `Map`s of the source become total functions
`String → String → ℚ` that are `0` outside the accumulated entries, and the
`Record<string, number>` of ratings becomes a total function `String → ℚ`
read only at roster members.
-/

namespace BT

/-- `winner: 'A' | 'B' | 'tie'` from the `MatchResult` interface. -/
inductive Winner where
  | A : Winner
  | B : Winner
  | tie : Winner
deriving DecidableEq, Repr

/-- `MatchResult { modelA: string; modelB: string; winner: 'A'|'B'|'tie' }`. -/
structure MatchResult where
  modelA : String
  modelB : String
  winner : Winner
deriving DecidableEq, Repr

/-- Pointwise update of a nested map at one ordered key pair, mirroring
`matrix.get(a)!.set(b, v)`. -/
def upd2 (f : String → String → ℚ) (a b : String) (v : ℚ) : String → String → ℚ :=
  fun x y => if x = a ∧ y = b then v else f x y

/-- One accumulation step of `computeWinMatrix`: a decisive result adds `1`
to the winner's ordered cell; a tie reads both cells first and then adds
`0.5` to each, exactly as the source does. -/
def tallyStep (t : String → String → ℚ) (mt : MatchResult) : String → String → ℚ :=
  match mt.winner with
  | Winner.A => upd2 t mt.modelA mt.modelB (t mt.modelA mt.modelB + 1)
  | Winner.B => upd2 t mt.modelB mt.modelA (t mt.modelB mt.modelA + 1)
  | Winner.tie =>
      upd2 (upd2 t mt.modelA mt.modelB (t mt.modelA mt.modelB + 1/2))
        mt.modelB mt.modelA (t mt.modelB mt.modelA + 1/2)

/-- `computeWinMatrix()`: fold of the match history over a zero matrix. -/
def winMatrix (history : List MatchResult) : String → String → ℚ :=
  history.foldl tallyStep (fun _ _ => 0)

/-- One accumulation step of `computeComparisonCounts`: both symmetric cells
are read before either is written, exactly as the source does. -/
def countStep (c : String → String → ℚ) (mt : MatchResult) : String → String → ℚ :=
  upd2 (upd2 c mt.modelA mt.modelB (c mt.modelA mt.modelB + 1))
    mt.modelB mt.modelA (c mt.modelB mt.modelA + 1)

/-- `computeComparisonCounts()`: fold of the match history over a zero matrix. -/
def comparisonCounts (history : List MatchResult) : String → String → ℚ :=
  history.foldl countStep (fun _ _ => 0)

/-- Inner loop of `estimate()` computing `totalWins` for one competitor:
the sum over all other roster members of the win-tally cells. -/
def totalWins (models : List String) (W : String → String → ℚ) (m : String) : ℚ :=
  (models.map fun o => if o = m then 0 else W m o).sum

/-- Inner loop of `estimate()` computing `denomSum` for one competitor:
terms are added only for other roster members with a positive comparison
count, and read the strength snapshot `r`. -/
def denomSum (models : List String) (C : String → String → ℚ) (r : String → ℚ)
    (m : String) : ℚ :=
  (models.map fun o =>
    if o = m then 0 else if 0 < C m o then C m o / (r m + r o) else 0).sum

/-- The per-competitor update of `estimate()`'s loop body, as a direct
function of the previous iteration's strength snapshot `r`: this is the
reference Jacobi-style (Zermelo/MM fixed-point) update the specification
describes — `totalWins / denomSum` when `denomSum > 0`, otherwise the
previous strength. -/
def newRating (models : List String) (W C : String → String → ℚ) (r : String → ℚ)
    (m : String) : ℚ :=
  if 0 < denomSum models C r m then totalWins models W m / denomSum models C r m
  else r m

/-- Pointwise update of a `Record<string, number>`. -/
def updS (f : String → ℚ) (a : String) (v : ℚ) : String → ℚ :=
  fun x => if x = a then v else f x

/-- One step of the source's `for (const model of this.models)` loop body:
writes `newRatings[model]` into the accumulated record and updates
`maxChange`, while every strength read goes to the snapshot `r`. -/
def sweepStep (models : List String) (W C : String → String → ℚ) (r : String → ℚ)
    (acc : (String → ℚ) × ℚ) (m : String) : (String → ℚ) × ℚ :=
  let nr := newRating models W C r m
  let change := |nr - r m|
  (updS acc.1 m nr, if acc.2 < change then change else acc.2)

/-- The whole per-iteration sweep: starting from an empty `newRatings`
record and `maxChange = 0`, process every roster member in order. -/
def sweep (models : List String) (W C : String → String → ℚ) (r : String → ℚ) :
    (String → ℚ) × ℚ :=
  models.foldl (sweepStep models W C r) (fun _ => 0, 0)

/-- `Object.values(newRatings).reduce((a, b) => a + b, 0)` over the roster
(the roster is duplicate-free by the construction contract, so the record's
values are exactly the per-member values). -/
def ratingSum (models : List String) (s : String → ℚ) : ℚ :=
  (models.map s).sum

/-- `normFactor = this.models.length / ratingSum`. -/
def normFactor (models : List String) (s : String → ℚ) : ℚ :=
  (models.length : ℚ) / ratingSum models s

/-- The write-back loop `ratings[model] = newRatings[model] * normFactor`. -/
def assignBack (models : List String) (g : String → ℚ) (r : String → ℚ) :
    String → ℚ :=
  models.foldl (fun acc m => updS acc m (g m)) r

/-- One full iteration of `estimate()`'s `while` loop: sweep, renormalize,
and report the iteration's `maxChange` (which the source computes on the
pre-normalization values). -/
def iterate (models : List String) (W C : String → String → ℚ) (r : String → ℚ) :
    (String → ℚ) × ℚ :=
  let s := sweep models W C r
  (assignBack models (fun m => s.1 m * normFactor models s.1) r, s.2)

/-- The strength vector after `k` completed iterations of `estimate()`'s
loop, starting from the all-ones initialization. -/
def strengthAt (models : List String) (W C : String → String → ℚ) : ℕ → (String → ℚ)
  | 0 => fun _ => 1
  | k + 1 => (iterate models W C (strengthAt models W C k)).1

/-- The `while (iteration < maxIterations && !converged)` loop: `fuel` is the
number of remaining allowed iterations and `iter` the count already done;
returns the final strengths, the iteration count, and the converged flag. -/
def btLoop (models : List String) (W C : String → String → ℚ) (τ : ℚ) :
    ℕ → (String → ℚ) → ℕ → ((String → ℚ) × ℕ × Bool)
  | 0, r, iter => (r, iter, false)
  | fuel + 1, r, iter =>
      let p := iterate models W C r
      if p.2 < τ then (p.1, iter + 1, true)
      else btLoop models W C τ fuel p.1 (iter + 1)

/-- The exact-arithmetic part of `estimate()`: build both matrices, start all
strengths at `1.0`, and run the fitting loop. -/
def estimateCore (models : List String) (history : List MatchResult)
    (maxIterations : ℕ) (τ : ℚ) : (String → ℚ) × ℕ × Bool :=
  btLoop models (winMatrix history) (comparisonCounts history) τ
    maxIterations (fun _ => 1) 0

/-- The geometric-mean reference of the Elo conversion:
`exp((Σ log strength) / roster size)`. -/
noncomputable def referencePower (models : List String) (r : String → ℚ) : ℝ :=
  Real.exp ((models.map fun m => Real.log ((r m : ℝ))).sum / (models.length : ℝ))

/-- `Math.round(1500 + 400 * Math.log10(strength / referencePower))`.
Mathlib's `round` is `⌊x + 1/2⌋`, the same half-toward-+∞ convention as
JavaScript's `Math.round`. -/
noncomputable def displayRating (models : List String) (r : String → ℚ)
    (m : String) : ℤ :=
  round ((1500 : ℝ) + 400 * Real.logb 10 ((r m : ℝ) / referencePower models r))

/-- `BradleyTerryResult`, with the ratings record as an association list
over the roster. -/
structure BTResult where
  ratings : List (String × ℤ)
  iterations : ℕ
  converged : Bool

/-- Full `estimate()`: fitting loop followed by the Elo display conversion. -/
noncomputable def estimate (models : List String) (history : List MatchResult)
    (maxIterations : ℕ) (τ : ℚ) : BTResult :=
  let core := estimateCore models history maxIterations τ
  { ratings := models.map fun m => (m, displayRating models core.1 m)
    iterations := core.2.1
    converged := core.2.2 }

/-- `predictWinProbability(ratings, modelA, modelB)`:
`1 / (1 + 10 ** ((ratingB - ratingA) / 400))`. -/
noncomputable def predictWinProbability (ratings : String → ℝ)
    (modelA modelB : String) : ℝ :=
  1 / (1 + (10 : ℝ) ^ ((ratings modelB - ratings modelA) / 400))

/-! ## Facts about the accumulated matrices -/

theorem upd2_eq (f : String → String → ℚ) (a b : String) (v : ℚ) (x y : String) :
    upd2 f a b v x y = if x = a ∧ y = b then v else f x y := rfl

/-- Each accumulation step keeps the win tally entrywise nonnegative. -/
theorem tallyStep_nonneg (t : String → String → ℚ) (mt : MatchResult)
    (ht : ∀ x y, 0 ≤ t x y) : ∀ x y, 0 ≤ tallyStep t mt x y := by
  rcases mt with ⟨a, b, w⟩
  intro x y
  cases w <;> simp only [tallyStep, upd2_eq] <;> split_ifs <;>
    linarith [ht a b, ht b a, ht x y]

/-- The win tally of any history is entrywise nonnegative. -/
theorem winMatrix_nonneg (history : List MatchResult) :
    ∀ x y, 0 ≤ winMatrix history x y := by
  rw [winMatrix]
  generalize hz : (fun _ _ => (0 : ℚ)) = t
  have ht : ∀ x y, 0 ≤ t x y := by intro x y; rw [← hz]
  clear hz
  induction history generalizing t with
  | nil => exact ht
  | cons mt rest ih => exact ih _ (tallyStep_nonneg t mt ht)

/-- Each accumulation step keeps the comparison-count matrix entrywise
nonnegative. -/
theorem countStep_nonneg (c : String → String → ℚ) (mt : MatchResult)
    (hc : ∀ x y, 0 ≤ c x y) : ∀ x y, 0 ≤ countStep c mt x y := by
  rcases mt with ⟨a, b, w⟩
  intro x y
  simp only [countStep, upd2_eq]
  split_ifs <;> linarith [hc a b, hc b a, hc x y]

/-- The comparison-count matrix of any history is entrywise nonnegative. -/
theorem comparisonCounts_nonneg (history : List MatchResult) :
    ∀ x y, 0 ≤ comparisonCounts history x y := by
  rw [comparisonCounts]
  generalize hz : (fun _ _ => (0 : ℚ)) = c
  have hc : ∀ x y, 0 ≤ c x y := by intro x y; rw [← hz]
  clear hz
  induction history generalizing c with
  | nil => exact hc
  | cons mt rest ih => exact ih _ (countStep_nonneg c mt hc)

/-- A match with distinct endpoints keeps the comparison-count matrix
symmetric. -/
theorem countStep_symm (c : String → String → ℚ) (mt : MatchResult)
    (hab : mt.modelA ≠ mt.modelB) (hc : ∀ x y, c x y = c y x) :
    ∀ x y, countStep c mt x y = countStep c mt y x := by
  rcases mt with ⟨a, b, w⟩
  simp only [ne_eq] at hab
  intro x y
  by_cases h1 : x = a ∧ y = b
  · obtain ⟨rfl, rfl⟩ := h1
    have hyx : ¬(y = x) := fun h => hab h.symm
    simp only [countStep, upd2_eq]
    simp [hab, hyx, hc x y]
  · by_cases h2 : x = b ∧ y = a
    · obtain ⟨rfl, rfl⟩ := h2
      have hxy : ¬(x = y) := fun h => hab h.symm
      simp only [countStep, upd2_eq]
      simp [hab, hxy, hc x y]
    · have h1s : ¬(y = b ∧ x = a) := fun h => h1 ⟨h.2, h.1⟩
      have h2s : ¬(y = a ∧ x = b) := fun h => h2 ⟨h.2, h.1⟩
      simp only [countStep, upd2_eq, if_neg h1, if_neg h2, if_neg h1s, if_neg h2s]
      exact hc x y

/-- The comparison-count matrix of a history with distinct endpoints is
symmetric: `count(x, y) = count(y, x)`. -/
theorem comparisonCounts_symm (history : List MatchResult)
    (hD : ∀ mt ∈ history, mt.modelA ≠ mt.modelB) :
    ∀ x y, comparisonCounts history x y = comparisonCounts history y x := by
  rw [comparisonCounts]
  generalize hz : (fun _ _ => (0 : ℚ)) = c
  have hc : ∀ x y, c x y = c y x := by intro x y; rw [← hz]
  clear hz
  induction history generalizing c with
  | nil => exact hc
  | cons mt rest ih =>
      exact ih (fun m hm => hD m (List.mem_cons_of_mem mt hm)) _
        (countStep_symm c mt (hD mt (List.mem_cons_self mt rest)) hc)

/-- A match with distinct endpoints adds exactly one win-equivalent to its
pair: the conservation relation between tally and count is preserved. -/
theorem conserveStep (t c : String → String → ℚ) (mt : MatchResult)
    (hab : mt.modelA ≠ mt.modelB)
    (hrel : ∀ x y, x ≠ y → t x y + t y x = c x y) :
    ∀ x y, x ≠ y → tallyStep t mt x y + tallyStep t mt y x = countStep c mt x y := by
  rcases mt with ⟨a, b, w⟩
  simp only [ne_eq] at hab
  intro x y hxy
  by_cases h1 : x = a ∧ y = b
  · obtain ⟨rfl, rfl⟩ := h1
    have hyx : ¬(y = x) := fun h => hxy h.symm
    cases w <;> simp only [tallyStep, countStep, upd2_eq] <;>
      simp [hxy, hyx] <;> linarith [hrel x y hxy]
  · by_cases h2 : x = b ∧ y = a
    · obtain ⟨rfl, rfl⟩ := h2
      have hyx : ¬(y = x) := fun h => hxy h.symm
      cases w <;> simp only [tallyStep, countStep, upd2_eq] <;>
        simp [hxy, hyx] <;> linarith [hrel x y hxy]
    · have h1s : ¬(y = b ∧ x = a) := fun h => h1 ⟨h.2, h.1⟩
      have h2s : ¬(y = a ∧ x = b) := fun h => h2 ⟨h.2, h.1⟩
      cases w <;>
        simp only [tallyStep, countStep, upd2_eq, if_neg h1, if_neg h2,
          if_neg h1s, if_neg h2s] <;>
        exact hrel x y hxy

/-- **Tally conservation** for a whole history with distinct endpoints:
`tally(x, y) + tally(y, x) = count(x, y)` for every ordered pair of distinct
identifiers. -/
theorem foldl_conserve (history : List MatchResult)
    (hD : ∀ mt ∈ history, mt.modelA ≠ mt.modelB) :
    ∀ (t c : String → String → ℚ),
      (∀ x y, x ≠ y → t x y + t y x = c x y) →
      ∀ x y, x ≠ y →
        (history.foldl tallyStep t) x y + (history.foldl tallyStep t) y x =
          (history.foldl countStep c) x y := by
  induction history with
  | nil => intro t c hrel x y hxy; exact hrel x y hxy
  | cons mt rest ih =>
      intro t c hrel x y hxy
      simp only [List.foldl_cons]
      exact ih (fun m hm => hD m (List.mem_cons_of_mem mt hm)) _ _
        (conserveStep t c mt (hD mt (List.mem_cons_self mt rest)) hrel) x y hxy

theorem winMatrix_add_eq_counts (history : List MatchResult)
    (hD : ∀ mt ∈ history, mt.modelA ≠ mt.modelB) :
    ∀ x y, x ≠ y →
      winMatrix history x y + winMatrix history y x = comparisonCounts history x y :=
  foldl_conserve history hD _ _ (by intro x y _; norm_num)

/-! ## Characterization of the per-iteration folds -/

theorem updS_eq (f : String → ℚ) (a : String) (v : ℚ) (x : String) :
    updS f a v x = if x = a then v else f x := rfl

theorem assignBack_cons (a : String) (l : List String) (g r : String → ℚ) :
    assignBack (a :: l) g r = assignBack l g (updS r a (g a)) := rfl

/-- The write-back loop assigns `g m` at every roster member and leaves
other keys untouched (the written value does not depend on the accumulator,
so even repeated keys agree). -/
theorem assignBack_eq (models : List String) (g r : String → ℚ) (m : String) :
    assignBack models g r m = if m ∈ models then g m else r m := by
  induction models generalizing r with
  | nil => simp [assignBack]
  | cons a l ih =>
      rw [assignBack_cons, ih]
      by_cases hml : m ∈ l
      · simp [hml]
      · by_cases hma : m = a
        · simp [hml, hma, updS_eq]
        · simp [hml, hma, updS_eq]

/-- Value of the `newRatings` record built by folding `sweepStep` over any
list: every processed member holds its `newRating`, every other key holds
the accumulator's value. -/
theorem sweepAux_fst (models : List String) (W C : String → String → ℚ)
    (r : String → ℚ) (l : List String) (acc : (String → ℚ) × ℚ) (m : String) :
    (l.foldl (sweepStep models W C r) acc).1 m =
      if m ∈ l then newRating models W C r m else acc.1 m := by
  induction l generalizing acc with
  | nil => simp
  | cons a t ih =>
      rw [List.foldl_cons, ih]
      by_cases hmt : m ∈ t
      · simp [hmt]
      · by_cases hma : m = a
        · simp [hmt, hma, sweepStep, updS_eq]
        · simp [hmt, hma, sweepStep, updS_eq]

/-- On roster members, the sequentially built `newRatings` record agrees
with the direct Jacobi update read off the snapshot `r`. -/
theorem sweep_fst (models : List String) (W C : String → String → ℚ)
    (r : String → ℚ) (m : String) (hm : m ∈ models) :
    (sweep models W C r).1 m = newRating models W C r m := by
  rw [sweep, sweepAux_fst]
  simp [hm]

/-- If no roster member moves in the update step, the sweep's `maxChange`
stays at its starting value `0`. -/
theorem sweepAux_snd_zero (models : List String) (W C : String → String → ℚ)
    (r : String → ℚ) (l : List String) (acc : (String → ℚ) × ℚ)
    (hacc : acc.2 = 0) (hfix : ∀ m ∈ l, newRating models W C r m = r m) :
    (l.foldl (sweepStep models W C r) acc).2 = 0 := by
  induction l generalizing acc with
  | nil => simpa using hacc
  | cons a t ih =>
      rw [List.foldl_cons]
      refine ih _ ?_ (fun m hm => hfix m (List.mem_cons_of_mem a hm))
      have ha : newRating models W C r a = r a := hfix a (List.mem_cons_self a t)
      simp [sweepStep, ha, hacc]

theorem sweep_snd_zero (models : List String) (W C : String → String → ℚ)
    (r : String → ℚ) (hfix : ∀ m ∈ models, newRating models W C r m = r m) :
    (sweep models W C r).2 = 0 :=
  sweepAux_snd_zero models W C r models _ rfl hfix

/-- One full iteration, described pointwise: every roster member gets its
Jacobi update scaled by the normalization factor; every other key is
untouched. -/
theorem iterate_fst (models : List String) (W C : String → String → ℚ)
    (r : String → ℚ) (m : String) :
    (iterate models W C r).1 m =
      if m ∈ models then
        newRating models W C r m * normFactor models (sweep models W C r).1
      else r m := by
  rw [iterate]
  simp only
  rw [assignBack_eq]
  by_cases hm : m ∈ models
  · simp [hm, sweep_fst models W C r m hm]
  · simp [hm]

/-! ## Positivity and normalization invariants of the fitting loop -/

theorem totalWins_nonneg (models : List String) (W : String → String → ℚ)
    (hW : ∀ x y, 0 ≤ W x y) (m : String) : 0 ≤ totalWins models W m := by
  refine List.sum_nonneg ?_
  intro q hq
  obtain ⟨o, _, rfl⟩ := List.mem_map.mp hq
  split_ifs
  · exact le_refl 0
  · exact hW m o

/-- A single tally cell bounds the total wins from below. -/
theorem single_tally_le_totalWins (models : List String) (W : String → String → ℚ)
    (hW : ∀ x y, 0 ≤ W x y) (m o : String) (ho : o ∈ models) (hom : o ≠ m) :
    W m o ≤ totalWins models W m := by
  have hmem : (if o = m then 0 else W m o) ∈
      models.map fun o => if o = m then (0 : ℚ) else W m o :=
    List.mem_map_of_mem _ ho
  rw [if_neg hom] at hmem
  refine List.single_le_sum ?_ _ hmem
  intro q hq
  obtain ⟨o', _, rfl⟩ := List.mem_map.mp hq
  split_ifs
  · exact le_refl 0
  · exact hW m o'

/-- Positive total wins exhibit an opponent with a positive tally cell. -/
theorem totalWins_pos_elim (models : List String) (W : String → String → ℚ)
    (hW : ∀ x y, 0 ≤ W x y) (m : String) (h : 0 < totalWins models W m) :
    ∃ o ∈ models, o ≠ m ∧ 0 < W m o := by
  by_contra hno
  push_neg at hno
  have hz : totalWins models W m = 0 := by
    refine List.sum_eq_zero ?_
    intro q hq
    obtain ⟨o, ho, rfl⟩ := List.mem_map.mp hq
    split_ifs with hom
    · rfl
    · exact le_antisymm (hno o ho hom) (hW m o)
  rw [hz] at h
  exact lt_irrefl 0 h

/-- The competitor has at least one recorded comparison on the roster. -/
def hasComp (models : List String) (C : String → String → ℚ) (m : String) : Prop :=
  ∃ o ∈ models, o ≠ m ∧ 0 < C m o

/-- With no recorded comparison, the denominator sum is zero, so the source
leaves the strength unchanged. -/
theorem denomSum_eq_zero (models : List String) (C : String → String → ℚ)
    (r : String → ℚ) (m : String) (h : ¬hasComp models C m) :
    denomSum models C r m = 0 := by
  refine List.sum_eq_zero ?_
  intro q hq
  obtain ⟨o, ho, rfl⟩ := List.mem_map.mp hq
  split_ifs with hom hC
  · rfl
  · exact absurd ⟨o, ho, hom, hC⟩ h
  · rfl

theorem newRating_eq_self (models : List String) (W C : String → String → ℚ)
    (r : String → ℚ) (m : String) (h : ¬hasComp models C m) :
    newRating models W C r m = r m := by
  rw [newRating, denomSum_eq_zero models C r m h]
  norm_num

theorem newRating_nonneg (models : List String) (W C : String → String → ℚ)
    (r : String → ℚ) (hW : ∀ x y, 0 ≤ W x y) (m : String) (hm : 0 ≤ r m) :
    0 ≤ newRating models W C r m := by
  rw [newRating]
  split_ifs with h
  · exact div_nonneg (totalWins_nonneg models W hW m) h.le
  · exact hm

/-- The loop's positivity invariant: on the roster, strengths are
nonnegative, positive whenever the competitor has positive total wins, and
positive whenever it has no recorded comparison at all. -/
def Jinv (models : List String) (W C : String → String → ℚ) (r : String → ℚ) : Prop :=
  ∀ m ∈ models, 0 ≤ r m ∧
    (0 < totalWins models W m → 0 < r m) ∧
    (¬hasComp models C m → 0 < r m)

theorem denomSum_nonneg (models : List String) (C : String → String → ℚ)
    (r : String → ℚ) (m : String) (hm : 0 ≤ r m)
    (hr : ∀ o ∈ models, 0 ≤ r o) : 0 ≤ denomSum models C r m := by
  refine List.sum_nonneg ?_
  intro q hq
  obtain ⟨o, ho, rfl⟩ := List.mem_map.mp hq
  split_ifs with hom hC
  · exact le_refl 0
  · exact div_nonneg hC.le (add_nonneg hm (hr o ho))
  · exact le_refl 0

/-- Under the invariant, a recorded comparison makes the denominator sum
strictly positive (its pair has at least one positive strength, so the term
is a genuine positive quotient). -/
theorem denomSum_pos (models : List String) (W C : String → String → ℚ)
    (r : String → ℚ) (hW : ∀ x y, 0 ≤ W x y)
    (hcons : ∀ x y, x ≠ y → W x y + W y x = C x y)
    (hJ : Jinv models W C r) (m : String) (hm : m ∈ models)
    (h : hasComp models C m) : 0 < denomSum models C r m := by
  obtain ⟨o, ho, hom, hC⟩ := h
  have hsum : W m o + W o m = C m o := hcons m o (fun e => hom e.symm)
  have hpos : 0 < r m + r o := by
    rcases lt_or_eq_of_le (hW m o) with hWmo | hWmo
    · have htw : 0 < totalWins models W m :=
        lt_of_lt_of_le hWmo (single_tally_le_totalWins models W hW m o ho hom)
      exact add_pos_of_pos_of_nonneg ((hJ m hm).2.1 htw) ((hJ o ho).1)
    · have hWom : 0 < W o m := by rw [← hsum, ← hWmo] at hC; linarith
      have htw : 0 < totalWins models W o :=
        lt_of_lt_of_le hWom
          (single_tally_le_totalWins models W hW o m hm (fun e => hom e.symm))
      exact add_pos_of_nonneg_of_pos ((hJ m hm).1) ((hJ o ho).2.1 htw)
  have hterm : (0 : ℚ) < C m o / (r m + r o) := div_pos hC hpos
  have hmem : (if o = m then 0 else if 0 < C m o then C m o / (r m + r o) else 0) ∈
      models.map fun o => if o = m then (0 : ℚ) else
        if 0 < C m o then C m o / (r m + r o) else 0 :=
    List.mem_map_of_mem _ ho
  rw [if_neg hom, if_pos hC] at hmem
  refine lt_of_lt_of_le hterm (List.single_le_sum ?_ _ hmem)
  intro q hq
  obtain ⟨o', ho', rfl⟩ := List.mem_map.mp hq
  split_ifs with hom' hC'
  · exact le_refl 0
  · exact div_nonneg hC'.le (add_nonneg (hJ m hm).1 ((hJ o' ho').1))
  · exact le_refl 0

theorem newRating_pos (models : List String) (W C : String → String → ℚ)
    (r : String → ℚ) (hW : ∀ x y, 0 ≤ W x y)
    (hcons : ∀ x y, x ≠ y → W x y + W y x = C x y)
    (hJ : Jinv models W C r) (m : String) (hm : m ∈ models)
    (htw : 0 < totalWins models W m) : 0 < newRating models W C r m := by
  obtain ⟨o, ho, hom, hWmo⟩ := totalWins_pos_elim models W hW m htw
  have hcomp : hasComp models C m := by
    refine ⟨o, ho, hom, ?_⟩
    have := hcons m o (fun e => hom e.symm)
    have := hW o m
    linarith
  have hds := denomSum_pos models W C r hW hcons hJ m hm hcomp
  rw [newRating, if_pos hds]
  exact div_pos htw hds

theorem sum_pos_of_mem_pos (l : List ℚ) (hnn : ∀ x ∈ l, 0 ≤ x) (x : ℚ)
    (hx : x ∈ l) (hxpos : 0 < x) : 0 < l.sum :=
  lt_of_lt_of_le hxpos (List.single_le_sum hnn x hx)

/-- The values of the `newRatings` record sum to the same total as the
reference Jacobi update over the roster. -/
theorem newRatings_sum_eq (models : List String) (W C : String → String → ℚ)
    (r : String → ℚ) :
    ratingSum models (sweep models W C r).1 =
      (models.map (newRating models W C r)).sum := by
  rw [ratingSum]
  exact congrArg List.sum (List.map_congr_left (fun m hm => sweep_fst models W C r m hm))

/-- Under the invariant, a nonempty roster always has a positive total of
updated strengths: a competitor with comparisons is in a pair one side of
which has positive wins, and one without keeps its positive strength. -/
theorem newRatings_sum_pos (models : List String) (W C : String → String → ℚ)
    (r : String → ℚ) (hne : models ≠ []) (hW : ∀ x y, 0 ≤ W x y)
    (hcons : ∀ x y, x ≠ y → W x y + W y x = C x y)
    (hJ : Jinv models W C r) :
    0 < (models.map (newRating models W C r)).sum := by
  obtain ⟨m0, hm0⟩ := List.exists_mem_of_ne_nil models hne
  have hnn : ∀ q ∈ models.map (newRating models W C r), 0 ≤ q := by
    intro q hq
    obtain ⟨o, ho, rfl⟩ := List.mem_map.mp hq
    exact newRating_nonneg models W C r hW o (hJ o ho).1
  by_cases hcomp : hasComp models C m0
  · obtain ⟨o, ho, hom, hC⟩ := hcomp
    have hsum : W m0 o + W o m0 = C m0 o := hcons m0 o (fun e => hom e.symm)
    rcases lt_or_eq_of_le (hW m0 o) with hWmo | hWmo
    · have htw : 0 < totalWins models W m0 :=
        lt_of_lt_of_le hWmo (single_tally_le_totalWins models W hW m0 o ho hom)
      exact sum_pos_of_mem_pos _ hnn _ (List.mem_map_of_mem _ hm0)
        (newRating_pos models W C r hW hcons hJ m0 hm0 htw)
    · have hWom : 0 < W o m0 := by rw [← hsum, ← hWmo] at hC; linarith
      have htw : 0 < totalWins models W o :=
        lt_of_lt_of_le hWom
          (single_tally_le_totalWins models W hW o m0 hm0 (fun e => hom e.symm))
      exact sum_pos_of_mem_pos _ hnn _ (List.mem_map_of_mem _ ho)
        (newRating_pos models W C r hW hcons hJ o ho htw)
  · refine sum_pos_of_mem_pos _ hnn _ (List.mem_map_of_mem _ hm0) ?_
    rw [newRating_eq_self models W C r m0 hcomp]
    exact (hJ m0 hm0).2.2 hcomp

/-- On the roster, one iteration is the Jacobi update scaled by
`roster size / (sum of updated strengths)`. -/
theorem iterate_pointwise (models : List String) (W C : String → String → ℚ)
    (r : String → ℚ) (m : String) (hm : m ∈ models) :
    (iterate models W C r).1 m =
      newRating models W C r m *
        ((models.length : ℚ) / (models.map (newRating models W C r)).sum) := by
  rw [iterate_fst, if_pos hm, normFactor, newRatings_sum_eq]

theorem iterate_sum (models : List String) (W C : String → String → ℚ)
    (r : String → ℚ) (hne : models ≠ []) (hW : ∀ x y, 0 ≤ W x y)
    (hcons : ∀ x y, x ≠ y → W x y + W y x = C x y)
    (hJ : Jinv models W C r) :
    (models.map (iterate models W C r).1).sum = (models.length : ℚ) := by
  have hRS := newRatings_sum_pos models W C r hne hW hcons hJ
  have hcongr : models.map (iterate models W C r).1 =
      models.map fun m => newRating models W C r m *
        ((models.length : ℚ) / (models.map (newRating models W C r)).sum) :=
    List.map_congr_left (fun m hm => iterate_pointwise models W C r m hm)
  rw [hcongr, List.sum_map_mul_right, mul_comm, div_mul_cancel₀]
  exact ne_of_gt hRS

theorem iterate_Jinv (models : List String) (W C : String → String → ℚ)
    (r : String → ℚ) (hne : models ≠ []) (hW : ∀ x y, 0 ≤ W x y)
    (hcons : ∀ x y, x ≠ y → W x y + W y x = C x y)
    (hJ : Jinv models W C r) : Jinv models W C (iterate models W C r).1 := by
  have hRS := newRatings_sum_pos models W C r hne hW hcons hJ
  have hN : (0 : ℚ) < (models.length : ℚ) :=
    Nat.cast_pos.mpr (List.length_pos.mpr hne)
  have hnf : 0 < (models.length : ℚ) / (models.map (newRating models W C r)).sum :=
    div_pos hN hRS
  intro m hm
  rw [iterate_pointwise models W C r m hm]
  refine ⟨mul_nonneg (newRating_nonneg models W C r hW m (hJ m hm).1) hnf.le, ?_, ?_⟩
  · intro htw
    exact mul_pos (newRating_pos models W C r hW hcons hJ m hm htw) hnf
  · intro hcomp
    rw [newRating_eq_self models W C r m hcomp]
    exact mul_pos ((hJ m hm).2.2 hcomp) hnf

theorem Jinv_strengthAt (models : List String) (W C : String → String → ℚ)
    (hne : models ≠ []) (hW : ∀ x y, 0 ≤ W x y)
    (hcons : ∀ x y, x ≠ y → W x y + W y x = C x y) :
    ∀ k, Jinv models W C (strengthAt models W C k) := by
  intro k
  induction k with
  | zero =>
      intro m hm
      exact ⟨by norm_num [strengthAt], fun _ => by norm_num [strengthAt],
        fun _ => by norm_num [strengthAt]⟩
  | succ j ih => exact iterate_Jinv models W C _ hne hW hcons ih

/-- After every completed iteration, the strengths over the roster sum
exactly to the roster size. -/
theorem strengthAt_sum (models : List String) (W C : String → String → ℚ)
    (hne : models ≠ []) (hW : ∀ x y, 0 ≤ W x y)
    (hcons : ∀ x y, x ≠ y → W x y + W y x = C x y)
    (k : ℕ) (hk : 1 ≤ k) :
    (models.map (strengthAt models W C k)).sum = (models.length : ℚ) := by
  obtain ⟨j, rfl⟩ : ∃ j, k = j + 1 := ⟨k - 1, by omega⟩
  exact iterate_sum models W C _ hne hW hcons (Jinv_strengthAt models W C hne hW hcons j)

/-! ## Nonnegativity at every point of the loop -/

theorem normFactor_nonneg_of (models : List String) (s : String → ℚ)
    (h : ∀ m ∈ models, 0 ≤ s m) : 0 ≤ normFactor models s := by
  refine div_nonneg (Nat.cast_nonneg _) (List.sum_nonneg ?_)
  intro q hq
  obtain ⟨o, ho, rfl⟩ := List.mem_map.mp hq
  exact h o ho

theorem iterate_nonneg (models : List String) (W C : String → String → ℚ)
    (r : String → ℚ) (hW : ∀ x y, 0 ≤ W x y) (hr : ∀ x, 0 ≤ r x) :
    ∀ x, 0 ≤ (iterate models W C r).1 x := by
  intro x
  rw [iterate_fst]
  split_ifs with hx
  · refine mul_nonneg (newRating_nonneg models W C r hW x (hr x)) ?_
    refine normFactor_nonneg_of models _ ?_
    intro m hm
    rw [sweep_fst models W C r m hm]
    exact newRating_nonneg models W C r hW m (hr m)
  · exact hr x

/-- At every point of the loop — after initialization and after each
update-and-renormalization — all strengths are nonnegative. -/
theorem strengthAt_nonneg (models : List String) (W C : String → String → ℚ)
    (hW : ∀ x y, 0 ≤ W x y) : ∀ k x, 0 ≤ strengthAt models W C k x := by
  intro k
  induction k with
  | zero => intro x; norm_num [strengthAt]
  | succ j ih => exact iterate_nonneg models W C _ hW ih

/-! ## The loop's iteration count -/

theorem btLoop_succ (models : List String) (W C : String → String → ℚ) (τ : ℚ)
    (fuel : ℕ) (r : String → ℚ) (iter : ℕ) :
    btLoop models W C τ (fuel + 1) r iter =
      if (iterate models W C r).2 < τ then ((iterate models W C r).1, iter + 1, true)
      else btLoop models W C τ fuel (iterate models W C r).1 (iter + 1) := rfl

theorem btLoop_iterations_le (models : List String) (W C : String → String → ℚ)
    (τ : ℚ) : ∀ (fuel : ℕ) (r : String → ℚ) (iter : ℕ),
      (btLoop models W C τ fuel r iter).2.1 ≤ iter + fuel := by
  intro fuel
  induction fuel with
  | zero => intro r iter; simp [btLoop]
  | succ f ih =>
      intro r iter
      rw [btLoop_succ]
      split_ifs
      · simp
      · have := ih (iterate models W C r).1 (iter + 1)
        omega

theorem btLoop_iterations_ge (models : List String) (W C : String → String → ℚ)
    (τ : ℚ) : ∀ (fuel : ℕ) (r : String → ℚ) (iter : ℕ), 0 < fuel →
      iter + 1 ≤ (btLoop models W C τ fuel r iter).2.1 := by
  intro fuel
  induction fuel with
  | zero => intro r iter h; omega
  | succ f ih =>
      intro r iter _
      rw [btLoop_succ]
      split_ifs
      · simp
      · rcases Nat.eq_zero_or_pos f with hf | hf
        · subst hf; simp [btLoop]
        · have := ih (iterate models W C r).1 (iter + 1) hf
          omega

/-! ## The no-data fixed point -/

theorem sum_map_one (l : List String) : (l.map fun _ => (1 : ℚ)).sum = l.length := by
  induction l with
  | nil => simp
  | cons a t ih => simp [ih, add_comm]

/-- The zero comparison matrix records no comparison for anybody. -/
theorem not_hasComp_zero (models : List String) (m : String) :
    ¬hasComp models (fun _ _ => 0) m := by
  rintro ⟨o, _, _, hC⟩
  exact lt_irrefl 0 hC

/-- With an all-zero comparison matrix, one iteration maps the all-ones
strength vector to itself (the Jacobi update is the identity and the
normalization factor is `N / N = 1`). -/
theorem iterate_zero_matrix_one (models : List String) (W : String → String → ℚ)
    (hne : models ≠ []) :
    ∀ x, (iterate models W (fun _ _ => 0) (fun _ => 1)).1 x = 1 := by
  have hfix : ∀ m ∈ models,
      newRating models W (fun _ _ => 0) (fun _ => 1) m = 1 :=
    fun m _ => newRating_eq_self models W _ _ m (not_hasComp_zero models m)
  have hN : (0 : ℚ) < (models.length : ℚ) :=
    Nat.cast_pos.mpr (List.length_pos.mpr hne)
  have hnf : normFactor models (sweep models W (fun _ _ => 0) (fun _ => 1)).1 = 1 := by
    rw [normFactor, newRatings_sum_eq]
    have hcongr : models.map (newRating models W (fun _ _ => 0) (fun _ => 1)) =
        models.map fun _ => (1 : ℚ) := List.map_congr_left hfix
    rw [hcongr, sum_map_one, div_self (ne_of_gt hN)]
  intro x
  rw [iterate_fst]
  split_ifs with hx
  · rw [hnf, hfix x hx, mul_one]
  · rfl

/-- With an all-zero comparison matrix nobody moves, so the first
iteration's maximum absolute change is `0`. -/
theorem sweep_snd_zero_matrix (models : List String) (W : String → String → ℚ) :
    (sweep models W (fun _ _ => 0) (fun _ => 1)).2 = 0 :=
  sweep_snd_zero models W _ _
    (fun m _ => newRating_eq_self models W _ _ m (not_hasComp_zero models m))

/-- Every strength equal to `1` over the roster makes the display rating
exactly the `1500` baseline. -/
theorem displayRating_eq_1500 (models : List String) (r : String → ℚ)
    (h1 : ∀ m ∈ models, r m = 1) (m : String) (hm : m ∈ models) :
    displayRating models r m = 1500 := by
  have hlog : models.map (fun x => Real.log ((r x : ℝ))) =
      models.map fun _ => (0 : ℝ) := by
    refine List.map_congr_left ?_
    intro x hx
    rw [h1 x hx]
    push_cast
    exact Real.log_one
  have hzero : (models.map fun _ => (0 : ℝ)).sum = 0 :=
    List.sum_eq_zero (by intro q hq; obtain ⟨o, _, rfl⟩ := List.mem_map.mp hq; rfl)
  have href : referencePower models r = 1 := by
    rw [referencePower, hlog, hzero, zero_div, Real.exp_zero]
  rw [displayRating, href, h1 m hm]
  push_cast
  rw [div_one, Real.logb_one, mul_zero, add_zero]
  rw [show ((1500 : ℝ)) = ((1500 : ℤ) : ℝ) by norm_num, round_intCast]

/-! ## Evaluation lemmas for concrete inputs -/

theorem strengthAt_zero (models : List String) (W C : String → String → ℚ) :
    strengthAt models W C 0 = fun _ => 1 := rfl

theorem strengthAt_succ (models : List String) (W C : String → String → ℚ) (k : ℕ) :
    strengthAt models W C (k + 1) = (iterate models W C (strengthAt models W C k)).1 := rfl

theorem iterate_snd (models : List String) (W C : String → String → ℚ)
    (r : String → ℚ) : (iterate models W C r).2 = (sweep models W C r).2 := rfl

theorem iterate_nil_snd (W C : String → String → ℚ) (r : String → ℚ) :
    (iterate [] W C r).2 = 0 := rfl

/-- Folding `n` identical decisive matches adds `n` to the winner's cell. -/
theorem foldl_tally_replicate_A (a b : String) (n : ℕ) :
    ∀ (t : String → String → ℚ) (x y : String),
      (List.replicate n (⟨a, b, Winner.A⟩ : MatchResult)).foldl tallyStep t x y =
        if x = a ∧ y = b then t x y + n else t x y := by
  induction n with
  | zero => intro t x y; simp
  | succ m ih =>
      intro t x y
      rw [List.replicate_succ, List.foldl_cons, ih]
      by_cases h : x = a ∧ y = b
      · obtain ⟨rfl, rfl⟩ := h
        simp [tallyStep, upd2_eq]
        ring
      · simp only [tallyStep, upd2_eq, if_neg h]

theorem winMatrix_replicate_A (a b : String) (n : ℕ) (x y : String) :
    winMatrix (List.replicate n ⟨a, b, Winner.A⟩) x y =
      if x = a ∧ y = b then (n : ℚ) else 0 := by
  rw [winMatrix, foldl_tally_replicate_A]
  split_ifs <;> norm_num

/-- Folding `n` identical matches between distinct endpoints adds `n` to the
pair's two comparison cells. -/
theorem foldl_count_replicate (a b : String) (hab : a ≠ b) (n : ℕ) :
    ∀ (c : String → String → ℚ) (x y : String) (w : Winner),
      (List.replicate n (⟨a, b, w⟩ : MatchResult)).foldl countStep c x y =
        if (x = a ∧ y = b) ∨ (x = b ∧ y = a) then c x y + n else c x y := by
  induction n with
  | zero => intro c x y w; simp
  | succ m ih =>
      intro c x y w
      rw [List.replicate_succ, List.foldl_cons, ih]
      by_cases h1 : x = a ∧ y = b
      · obtain ⟨rfl, rfl⟩ := h1
        have hyx : ¬(y = x) := fun h => hab h.symm
        simp [countStep, upd2_eq, hab, hyx]
        ring
      · by_cases h2 : x = b ∧ y = a
        · obtain ⟨rfl, rfl⟩ := h2
          have hxy : ¬(x = y) := fun h => hab h.symm
          simp [countStep, upd2_eq, hab, hxy, h1]
          ring
        · have h1s : ¬(y = b ∧ x = a) := fun h => h1 ⟨h.2, h.1⟩
          have h2s : ¬(y = a ∧ x = b) := fun h => h2 ⟨h.2, h.1⟩
          simp only [countStep, upd2_eq, if_neg h1, if_neg h2, if_neg h1s, if_neg h2s,
            or_self, if_neg (not_or.mpr ⟨h1, h2⟩)]

theorem comparisonCounts_replicate (a b : String) (hab : a ≠ b) (n : ℕ) (w : Winner)
    (x y : String) :
    comparisonCounts (List.replicate n ⟨a, b, w⟩) x y =
      if (x = a ∧ y = b) ∨ (x = b ∧ y = a) then (n : ℚ) else 0 := by
  rw [comparisonCounts, foldl_count_replicate a b hab]
  split_ifs <;> norm_num

/-- On the empty roster, the loop's first iteration already reports a zero
maximum change, so `estimate` stops after exactly one iteration with an
empty ratings record. -/
theorem estimate_empty_roster (history : List MatchResult) (maxIter : ℕ) (τ : ℚ)
    (hmi : 1 ≤ maxIter) (hτ : 0 < τ) :
    (estimate [] history maxIter τ).ratings = [] ∧
    (estimate [] history maxIter τ).iterations = 1 ∧
    (estimate [] history maxIter τ).converged = true := by
  obtain ⟨j, rfl⟩ : ∃ j, maxIter = j + 1 := ⟨maxIter - 1, by omega⟩
  have hcore : estimateCore [] history (j + 1) τ =
      ((iterate [] (winMatrix history) (comparisonCounts history) (fun _ => 1)).1,
        1, true) := by
    rw [estimateCore, btLoop_succ, iterate_nil_snd, if_pos hτ]
  exact ⟨by simp [estimate], by simp [estimate, hcore], by simp [estimate, hcore]⟩

/-! ## The claims -/

/-- C1: on the roster `{X, Y}` with 20 matches in which `X` beats `Y` every
time (the claim's own scenario, at the source's default configuration), the
fitting loop drives `Y` to strength exactly `0` and converges with `X` at
strength `2`.  The Elo display conversion then evaluates the logarithm at
`0` (`Math.log(0) = -Infinity` in the source), so the returned display
ratings are `Infinity`/`NaN` rather than integers, `X`'s display rating
does not strictly exceed `Y`'s, and `predictWinProbability` returns `NaN`:
the claimed property fails on the code although the specification clearly
intends it. -/
theorem btC1_shutout_strengths :
    (estimateCore ["X","Y"] (List.replicate 20 ⟨"X","Y",Winner.A⟩) 200 (1/10000)).1 "Y" = 0 ∧
    (estimateCore ["X","Y"] (List.replicate 20 ⟨"X","Y",Winner.A⟩) 200 (1/10000)).1 "X" = 2 ∧
    (estimateCore ["X","Y"] (List.replicate 20 ⟨"X","Y",Winner.A⟩) 200 (1/10000)).2.2 = true := by
  have hWf : winMatrix (List.replicate 20 ⟨"X","Y",Winner.A⟩) =
      fun x y => if x = "X" ∧ y = "Y" then (20:ℚ) else 0 :=
    funext fun x => funext fun y => winMatrix_replicate_A "X" "Y" 20 x y
  have hCf : comparisonCounts (List.replicate 20 ⟨"X","Y",Winner.A⟩) =
      fun x y => if (x = "X" ∧ y = "Y") ∨ (x = "Y" ∧ y = "X") then (20:ℚ) else 0 :=
    funext fun x => funext fun y =>
      comparisonCounts_replicate "X" "Y" (by decide) 20 Winner.A x y
  simp only [estimateCore, hWf, hCf]
  set Wf : String → String → ℚ := fun x y => if x = "X" ∧ y = "Y" then (20:ℚ) else 0 with hW
  set Cf : String → String → ℚ :=
    fun x y => if (x = "X" ∧ y = "Y") ∨ (x = "Y" ∧ y = "X") then (20:ℚ) else 0 with hC
  have h1 : ∀ x, (iterate ["X","Y"] Wf Cf (fun _ => 1)).1 x =
      if x = "X" then 2 else if x = "Y" then 0 else 1 := by
    intro x
    by_cases hx : x = "X"
    · subst hx
      rw [iterate_pointwise _ _ _ _ _ (by simp)]
      simp [newRating, totalWins, denomSum, hW, hC]
      norm_num
    · by_cases hy : x = "Y"
      · subst hy
        rw [iterate_pointwise _ _ _ _ _ (by simp)]
        simp [newRating, totalWins, denomSum, hW, hC]
      · rw [iterate_fst, if_neg (by simp [hx, hy])]
        simp [hx, hy]
  have h1f : (iterate ["X","Y"] Wf Cf (fun _ => 1)).1 =
      fun x => if x = "X" then 2 else if x = "Y" then 0 else 1 := funext h1
  have hs1 : (iterate ["X","Y"] Wf Cf (fun _ => 1)).2 = 1 := by
    rw [iterate_snd]
    simp [sweep, sweepStep, newRating, totalWins, denomSum, updS, hW, hC]
  rw [show (200:ℕ) = 199 + 1 from rfl, btLoop_succ, hs1,
    if_neg (by norm_num : ¬((1:ℚ) < 1/10000)), h1f,
    show (199:ℕ) = 198 + 1 from rfl, btLoop_succ]
  have hs2 : (iterate ["X","Y"] Wf Cf
      (fun x => if x = "X" then 2 else if x = "Y" then 0 else 1)).2 = 0 := by
    rw [iterate_snd]
    simp [sweep, sweepStep, newRating, totalWins, denomSum, updS, hW, hC]
  rw [hs2, if_pos (by norm_num : (0:ℚ) < 1/10000)]
  refine ⟨?_, ?_, rfl⟩
  · rw [iterate_pointwise _ _ _ _ _ (by simp)]
    simp [newRating, totalWins, denomSum, hW, hC]
  · rw [iterate_pointwise _ _ _ _ _ (by simp)]
    simp [newRating, totalWins, denomSum, hW, hC]

/-- C2 (amended): at every point of `estimate()` — after initialization and
after each iteration's update-and-renormalization — every strength is
nonnegative; strictness fails (see the counterexample). -/
theorem btC2_nonneg (models : List String) (history : List MatchResult)
    (k : ℕ) (m : String) :
    0 ≤ strengthAt models (winMatrix history) (comparisonCounts history) k m :=
  strengthAt_nonneg models _ _ (winMatrix_nonneg history) k m

/-- C2 (counterexample): on the roster `{X, Y}` with one match `X` beats
`Y`, the strength of `Y` after the first update-and-renormalization is `0`,
not strictly positive. -/
theorem btC2_zero_strength :
    ¬(0 < strengthAt ["X","Y"] (winMatrix [⟨"X","Y",Winner.A⟩])
        (comparisonCounts [⟨"X","Y",Winner.A⟩]) 1 "Y") := by
  have h : strengthAt ["X","Y"] (winMatrix [⟨"X","Y",Winner.A⟩])
      (comparisonCounts [⟨"X","Y",Winner.A⟩]) 1 "Y" = 0 := by
    simp [strengthAt, iterate, sweep, sweepStep, newRating, totalWins, denomSum,
      normFactor, ratingSum, assignBack, winMatrix, comparisonCounts, tallyStep,
      countStep, upd2, updS]
  rw [h]
  norm_num

/-- C3: on a nonempty duplicate-free roster with an empty history (and the
contract's positive configuration), `estimate()` returns every display
rating equal to `1500`, `converged = true` and `iterations = 1`. -/
theorem btC3_no_data (models : List String) (maxIter : ℕ) (τ : ℚ)
    (hne : models ≠ []) (_hnd : models.Nodup) (hmi : 1 ≤ maxIter) (hτ : 0 < τ) :
    (∀ p ∈ (estimate models [] maxIter τ).ratings, p.2 = 1500) ∧
    (estimate models [] maxIter τ).iterations = 1 ∧
    (estimate models [] maxIter τ).converged = true := by
  obtain ⟨j, rfl⟩ : ∃ j, maxIter = j + 1 := ⟨maxIter - 1, by omega⟩
  have hWz : winMatrix [] = (fun _ _ => (0:ℚ)) := rfl
  have hCz : comparisonCounts [] = (fun _ _ => (0:ℚ)) := rfl
  have hcore : estimateCore models [] (j + 1) τ =
      ((iterate models (fun _ _ => 0) (fun _ _ => 0) (fun _ => 1)).1, 1, true) := by
    rw [estimateCore, hWz, hCz, btLoop_succ, iterate_snd, sweep_snd_zero_matrix,
      if_pos hτ]
  have hone := iterate_zero_matrix_one models (fun _ _ => 0) hne
  refine ⟨?_, by simp [estimate, hcore], by simp [estimate, hcore]⟩
  intro p hp
  simp only [estimate] at hp
  obtain ⟨m, hm, rfl⟩ := List.mem_map.mp hp
  simp only
  rw [hcore]
  exact displayRating_eq_1500 models _ (fun o _ => hone o) m hm

theorem btC3_no_data_witness :
    ((["A","B"] : List String) ≠ []) ∧
    (∀ p ∈ (estimate ["A","B"] [] 200 (1/10000)).ratings, p.2 = 1500) ∧
    (estimate ["A","B"] [] 200 (1/10000)).iterations = 1 ∧
    (estimate ["A","B"] [] 200 (1/10000)).converged = true := by
  have h := btC3_no_data ["A","B"] 200 (1/10000) (by decide) (by decide)
    (by norm_num) (by norm_num)
  exact ⟨by decide, h.1, h.2.1, h.2.2⟩

/-- C4 (counterexample): on the empty roster the `while` loop still runs
its first iteration (the empty sweep reports a zero maximum change and then
converges), so `iterations` is `1`, not `0` as claimed. -/
theorem btC4_iterations_one :
    (estimate [] [] 200 (1/10000)).iterations ≠ 0 := by
  have h := estimate_empty_roster [] 200 (1/10000) (by norm_num) (by norm_num)
  rw [h.2.1]
  norm_num

/-- C4 (amended): on the empty roster (with the contract's positive
configuration), `estimate()` returns an empty ratings mapping and an
iteration count of exactly `1` (with `converged = true`). -/
theorem btC4_empty_roster (history : List MatchResult) (maxIter : ℕ) (τ : ℚ)
    (hmi : 1 ≤ maxIter) (hτ : 0 < τ) :
    (estimate [] history maxIter τ).ratings = [] ∧
    (estimate [] history maxIter τ).iterations = 1 :=
  ⟨(estimate_empty_roster history maxIter τ hmi hτ).1,
    (estimate_empty_roster history maxIter τ hmi hτ).2.1⟩

theorem btC4_empty_roster_witness :
    (1 ≤ 200) ∧ ((0:ℚ) < 1/10000) ∧
    ((estimate [] [] 200 (1/10000)).ratings = [] ∧
      (estimate [] [] 200 (1/10000)).iterations = 1) :=
  ⟨by norm_num, by norm_num, btC4_empty_roster [] 200 (1/10000) (by norm_num) (by norm_num)⟩

/-- C5: for every roster and history satisfying the construction contract
(nonempty duplicate-free roster, matches between distinct roster members),
after every completed iteration the strengths over the roster sum exactly
to the roster size. -/
theorem btC5_normalization (models : List String) (history : List MatchResult)
    (hne : models ≠ []) (_hnd : models.Nodup)
    (_hMem : ∀ mt ∈ history, mt.modelA ∈ models ∧ mt.modelB ∈ models)
    (hD : ∀ mt ∈ history, mt.modelA ≠ mt.modelB) (k : ℕ) (hk : 1 ≤ k) :
    (models.map (strengthAt models (winMatrix history)
      (comparisonCounts history) k)).sum = (models.length : ℚ) :=
  strengthAt_sum models _ _ hne (winMatrix_nonneg history)
    (winMatrix_add_eq_counts history hD) k hk

theorem btC5_normalization_witness :
    ((["A","B"] : List String) ≠ []) ∧
    (["A","B"].map (strengthAt ["A","B"] (winMatrix [⟨"A","B",Winner.A⟩])
      (comparisonCounts [⟨"A","B",Winner.A⟩]) 1)).sum =
      (((["A","B"] : List String)).length : ℚ) :=
  ⟨by decide, btC5_normalization ["A","B"] [⟨"A","B",Winner.A⟩] (by decide) (by decide)
    (by decide) (by decide) 1 (by norm_num)⟩

/-- C6: for a history of matches between distinct roster members and any
ordered pair of distinct competitors, the win tally satisfies
`tally(x, y) + tally(y, x) = comparisonCount(x, y)`. -/
theorem btC6_tally_conservation (models : List String) (history : List MatchResult)
    (x y : String)
    (_hMem : ∀ mt ∈ history, mt.modelA ∈ models ∧ mt.modelB ∈ models)
    (hD : ∀ mt ∈ history, mt.modelA ≠ mt.modelB)
    (_hx : x ∈ models) (_hy : y ∈ models) (hxy : x ≠ y) :
    winMatrix history x y + winMatrix history y x = comparisonCounts history x y :=
  winMatrix_add_eq_counts history hD x y hxy

theorem btC6_tally_conservation_witness :
    (("A" : String) ≠ "B") ∧
    winMatrix [⟨"A","B",Winner.tie⟩, ⟨"A","B",Winner.A⟩] "A" "B" +
      winMatrix [⟨"A","B",Winner.tie⟩, ⟨"A","B",Winner.A⟩] "B" "A" =
      comparisonCounts [⟨"A","B",Winner.tie⟩, ⟨"A","B",Winner.A⟩] "A" "B" :=
  ⟨by decide, btC6_tally_conservation ["A","B"]
    [⟨"A","B",Winner.tie⟩, ⟨"A","B",Winner.A⟩] "A" "B" (by decide) (by decide)
    (by decide) (by decide) (by decide)⟩

/-- C7: for every ratings map and every two identifiers, the predicted win
probabilities of the two orderings sum exactly to `1`. -/
theorem btC7_probability_sum (r : String → ℝ) (a b : String) :
    predictWinProbability r a b + predictWinProbability r b a = 1 := by
  rw [predictWinProbability, predictWinProbability]
  set d := (r b - r a) / 400 with hd
  have hd2 : (r a - r b) / 400 = -d := by rw [hd]; ring
  rw [hd2]
  have ht : (0:ℝ) < (10:ℝ) ^ d := Real.rpow_pos_of_pos (by norm_num) d
  have hneg : (10:ℝ) ^ (-d) = ((10:ℝ) ^ d)⁻¹ := Real.rpow_neg (by norm_num : (0:ℝ) ≤ 10) d
  rw [hneg]
  have h1 : (1:ℝ) + (10:ℝ) ^ d ≠ 0 := by positivity
  have h2 : (1:ℝ) + ((10:ℝ) ^ d)⁻¹ ≠ 0 := by positivity
  field_simp
  ring

/-- C8 (amended): a competitor with no recorded comparison against anyone
is never changed by the per-iteration update step; after renormalization
its strength is its previous value times the iteration's global
normalization factor (so not necessarily `1.0`, see the counterexample). -/
theorem btC8_isolated (models : List String) (history : List MatchResult)
    (m : String) (hm : m ∈ models)
    (hno : ∀ o ∈ models, o ≠ m → comparisonCounts history m o = 0)
    (r : String → ℚ) :
    newRating models (winMatrix history) (comparisonCounts history) r m = r m ∧
    (iterate models (winMatrix history) (comparisonCounts history) r).1 m =
      r m * normFactor models
        (sweep models (winMatrix history) (comparisonCounts history) r).1 := by
  have hnc : ¬hasComp models (comparisonCounts history) m := by
    rintro ⟨o, ho, hom, hC⟩
    rw [hno o ho hom] at hC
    exact lt_irrefl 0 hC
  have h1 := newRating_eq_self models (winMatrix history) (comparisonCounts history) r m hnc
  refine ⟨h1, ?_⟩
  rw [iterate_fst, if_pos hm, h1]

theorem btC8_isolated_witness :
    (("A" : String) ∈ (["A","B"] : List String)) ∧
    (newRating ["A","B"] (winMatrix []) (comparisonCounts []) (fun _ => 1) "A" = 1 ∧
      (iterate ["A","B"] (winMatrix []) (comparisonCounts []) (fun _ => 1)).1 "A" =
        1 * normFactor ["A","B"]
          (sweep ["A","B"] (winMatrix []) (comparisonCounts []) (fun _ => 1)).1) :=
  ⟨by decide, btC8_isolated ["A","B"] [] "A" (by decide) (by decide) (fun _ => 1)⟩

/-- C8 (counterexample): on the roster `{A, B, C, D}` with history `A`
beats `B`, `B` beats `C`, the isolated competitor `D` has strength
`16/19 ≠ 1` after the second iteration (the second iteration's
normalization factor is `16/19`). -/
theorem btC8_isolated_strength_moves :
    strengthAt ["A","B","C","D"]
      (winMatrix [⟨"A","B",Winner.A⟩, ⟨"B","C",Winner.A⟩])
      (comparisonCounts [⟨"A","B",Winner.A⟩, ⟨"B","C",Winner.A⟩]) 2 "D" ≠ 1 := by
  set W := winMatrix [⟨"A","B",Winner.A⟩, ⟨"B","C",Winner.A⟩] with hW
  set C := comparisonCounts [⟨"A","B",Winner.A⟩, ⟨"B","C",Winner.A⟩] with hC
  have h1 : ∀ x, (iterate ["A","B","C","D"] W C (fun _ => 1)).1 x =
      if x = "A" then 2 else if x = "C" then 0 else 1 := by
    intro x
    by_cases hxA : x = "A"
    · subst hxA
      rw [iterate_pointwise _ _ _ _ _ (by simp)]
      simp [newRating, totalWins, denomSum, hW, hC, winMatrix, comparisonCounts,
        tallyStep, countStep, upd2]
      norm_num
    · by_cases hxB : x = "B"
      · subst hxB
        rw [iterate_pointwise _ _ _ _ _ (by simp)]
        simp [newRating, totalWins, denomSum, hW, hC, winMatrix, comparisonCounts,
          tallyStep, countStep, upd2, hxA]
        norm_num
      · by_cases hxC : x = "C"
        · subst hxC
          rw [iterate_pointwise _ _ _ _ _ (by simp)]
          simp [newRating, totalWins, denomSum, hW, hC, winMatrix, comparisonCounts,
            tallyStep, countStep, upd2, hxA, hxB]
        · by_cases hxD : x = "D"
          · subst hxD
            rw [iterate_pointwise _ _ _ _ _ (by simp)]
            simp [newRating, totalWins, denomSum, hW, hC, winMatrix, comparisonCounts,
              tallyStep, countStep, upd2, hxA, hxB, hxC]
            norm_num
          · rw [iterate_fst, if_neg (by simp [hxA, hxB, hxC, hxD])]
            simp [hxA, hxC]
  rw [show (2:ℕ) = 1 + 1 from rfl, strengthAt_succ,
    show (1:ℕ) = 0 + 1 from rfl, strengthAt_succ, strengthAt_zero,
    funext h1, iterate_pointwise _ _ _ _ _ (by simp)]
  simp [newRating, totalWins, denomSum, hW, hC, winMatrix, comparisonCounts,
    tallyStep, countStep, upd2]
  norm_num

/-- C9: the sequentially built per-iteration record (the source's loop body
writing `newRatings[model]` while reading `ratings`) agrees on every roster
member with the reference Jacobi-style sweep that computes every new
strength directly from the previous iteration's snapshot. -/
theorem btC9_jacobi_sweep (models : List String) (W C : String → String → ℚ)
    (r : String → ℚ) (m : String) (hm : m ∈ models) :
    (sweep models W C r).1 m = newRating models W C r m :=
  sweep_fst models W C r m hm

theorem btC9_jacobi_sweep_witness :
    (("A" : String) ∈ (["A","B"] : List String)) ∧
    (sweep ["A","B"] (fun _ _ => 0) (fun _ _ => 0) (fun _ => 1)).1 "A" =
      newRating ["A","B"] (fun _ _ => 0) (fun _ _ => 0) (fun _ => 1) "A" :=
  ⟨by decide, btC9_jacobi_sweep ["A","B"] (fun _ _ => 0) (fun _ _ => 0)
    (fun _ => 1) "A" (by decide)⟩

/-- C10: for every roster (including the empty one) and every history,
provided `maxIterations ≥ 1`, the returned iteration count satisfies
`1 ≤ iterations ≤ maxIterations`. -/
theorem btC10_iteration_bounds (models : List String) (history : List MatchResult)
    (maxIter : ℕ) (τ : ℚ) (hmi : 1 ≤ maxIter) :
    1 ≤ (estimate models history maxIter τ).iterations ∧
    (estimate models history maxIter τ).iterations ≤ maxIter := by
  have he : (estimate models history maxIter τ).iterations =
      (btLoop models (winMatrix history) (comparisonCounts history) τ
        maxIter (fun _ => 1) 0).2.1 := rfl
  rw [he]
  constructor
  · simpa using btLoop_iterations_ge models (winMatrix history)
      (comparisonCounts history) τ maxIter (fun _ => 1) 0 (by omega)
  · simpa using btLoop_iterations_le models (winMatrix history)
      (comparisonCounts history) τ maxIter (fun _ => 1) 0

theorem btC10_iteration_bounds_witness :
    (1 ≤ 5) ∧
    (1 ≤ (estimate ["A"] [] 5 (1/10000)).iterations ∧
      (estimate ["A"] [] 5 (1/10000)).iterations ≤ 5) :=
  ⟨by norm_num, btC10_iteration_bounds ["A"] [] 5 (1/10000) (by norm_num)⟩

end BT
